import Mathlib

/-!
Verification of the `code-ingest` backend: a shallow embedding of
`src/backend/app/chunker.py`, `src/backend/app/vector_store.py` and
`src/backend/app/embeddings.py`, together with proofs of the stated
properties of chunking, embedding normalization and vector search.

Python `float` arithmetic is modelled by exact real arithmetic (`ℝ`),
`math.sqrt` by `Real.sqrt`, Python lists by Lean lists, raised
`ValueError`s by `Except String`, and the mutable `self.data` dict by a
total function from repo ids to item lists (a missing key behaves like
the empty list, exactly as `dict.get` + the `if not repo_items` test do).
-/

namespace CodeIngest

/-! ### Decimal printing of naturals

Models Python's `str(n)` / f-string interpolation of a non-negative int,
used by `chunker.py` for `f"chunk-{start_line}-{end_line}"`.  Built from
`Nat.digits` so that injectivity is available. -/

/-- Decimal representation of a natural number, as Python's `str`. -/
def natStr (n : Nat) : String :=
  if n = 0 then "0" else String.mk (((Nat.digits 10 n).reverse).map Nat.digitChar)

/-- The chunk id `f"chunk-{start_line}-{end_line}"` from `chunk_file_text`. -/
def mkChunkId (s e : Nat) : String :=
  "chunk-" ++ natStr s ++ "-" ++ natStr e

theorem digitChar_injOn :
    ∀ a < 10, ∀ b < 10, Nat.digitChar a = Nat.digitChar b → a = b := by decide

theorem digitChar_ne_dash : ∀ a < 10, Nat.digitChar a ≠ '-' := by decide

theorem map_digitChar_inj :
    ∀ ds es : List Nat, (∀ d ∈ ds, d < 10) → (∀ e ∈ es, e < 10) →
      ds.map Nat.digitChar = es.map Nat.digitChar → ds = es := by
  intro ds
  induction ds with
  | nil => intro es _ _ h; cases es <;> simp_all
  | cons d ds ih =>
    intro es hds hes h
    cases es with
    | nil => simp_all
    | cons e es =>
      simp only [List.map_cons, List.cons.injEq] at h
      have hd : d = e :=
        digitChar_injOn d (hds d (List.mem_cons_self d ds)) e
          (hes e (List.mem_cons_self e es)) h.1
      have ht : ds = es :=
        ih es (fun x hx => hds x (List.mem_cons_of_mem d hx))
          (fun x hx => hes x (List.mem_cons_of_mem e hx)) h.2
      rw [hd, ht]

theorem natStr_injective : Function.Injective natStr := by
  intro a b h
  unfold natStr at h
  by_cases ha : a = 0 <;> by_cases hb : b = 0
  · rw [ha, hb]
  · exfalso
    rw [if_pos ha, if_neg hb] at h
    have hdata : ('0' :: []) = ((Nat.digits 10 b).reverse).map Nat.digitChar :=
      congrArg String.data h
    have hb10 : ∀ d ∈ (Nat.digits 10 b).reverse, d < 10 := by
      intro d hd
      exact Nat.digits_lt_base (by norm_num) (List.mem_reverse.mp hd)
    have h2 : ([0] : List Nat).map Nat.digitChar =
        ((Nat.digits 10 b).reverse).map Nat.digitChar := by
      rw [show ([0] : List Nat).map Nat.digitChar = ['0'] from rfl]
      exact hdata
    have h3 : ([0] : List Nat) = (Nat.digits 10 b).reverse :=
      map_digitChar_inj _ _ (by intro d hd; simp at hd; omega) hb10 h2
    have h4 : Nat.digits 10 b = [0] := by
      have := congrArg List.reverse h3
      simpa using this.symm
    have hb' := Nat.ofDigits_digits 10 b
    rw [h4] at hb'
    exact hb (by simpa [Nat.ofDigits] using hb'.symm)
  · exfalso
    rw [if_neg ha, if_pos hb] at h
    have hdata : ((Nat.digits 10 a).reverse).map Nat.digitChar = ('0' :: []) :=
      congrArg String.data h
    have ha10 : ∀ d ∈ (Nat.digits 10 a).reverse, d < 10 := by
      intro d hd
      exact Nat.digits_lt_base (by norm_num) (List.mem_reverse.mp hd)
    have h2 : ((Nat.digits 10 a).reverse).map Nat.digitChar =
        ([0] : List Nat).map Nat.digitChar := by
      rw [show ([0] : List Nat).map Nat.digitChar = ['0'] from rfl]
      exact hdata
    have h3 : (Nat.digits 10 a).reverse = ([0] : List Nat) :=
      map_digitChar_inj _ _ ha10 (by intro d hd; simp at hd; omega) h2
    have h4 : Nat.digits 10 a = [0] := by
      have := congrArg List.reverse h3
      simpa using this
    have ha' := Nat.ofDigits_digits 10 a
    rw [h4] at ha'
    exact ha (by simpa [Nat.ofDigits] using ha'.symm)
  · rw [if_neg ha, if_neg hb] at h
    have hdata := congrArg String.data h
    simp only [String.mk] at hdata
    have ha10 : ∀ d ∈ (Nat.digits 10 a).reverse, d < 10 := fun d hd =>
      Nat.digits_lt_base (by norm_num) (List.mem_reverse.mp hd)
    have hb10 : ∀ d ∈ (Nat.digits 10 b).reverse, d < 10 := fun d hd =>
      Nat.digits_lt_base (by norm_num) (List.mem_reverse.mp hd)
    have hrev : (Nat.digits 10 a).reverse = (Nat.digits 10 b).reverse :=
      map_digitChar_inj _ _ ha10 hb10 hdata
    have hdig : Nat.digits 10 a = Nat.digits 10 b := by
      have := congrArg List.reverse hrev
      simpa using this
    calc a = Nat.ofDigits 10 (Nat.digits 10 a) := (Nat.ofDigits_digits 10 a).symm
      _ = Nat.ofDigits 10 (Nat.digits 10 b) := by rw [hdig]
      _ = b := Nat.ofDigits_digits 10 b

theorem natStr_no_dash (n : Nat) : '-' ∉ (natStr n).data := by
  unfold natStr
  by_cases hn : n = 0
  · rw [if_pos hn]; decide
  · rw [if_neg hn]
    intro hmem
    simp only [String.mk] at hmem
    rcases List.mem_map.mp hmem with ⟨d, hd, hdc⟩
    exact digitChar_ne_dash d
      (Nat.digits_lt_base (by norm_num) (List.mem_reverse.mp hd)) hdc

/-- Unique parsing around a separator character that occurs in neither prefix. -/
theorem sep_parse {xs ys us vs : List Char}
    (hx : '-' ∉ xs) (hy : '-' ∉ ys)
    (h : xs ++ '-' :: us = ys ++ '-' :: vs) : xs = ys ∧ us = vs := by
  induction xs generalizing ys with
  | nil =>
    cases ys with
    | nil => simpa using h
    | cons y ys =>
      exfalso
      simp only [List.nil_append, List.cons_append, List.cons.injEq] at h
      exact hy (h.1 ▸ List.mem_cons_self y ys)
  | cons x xs ih =>
    cases ys with
    | nil =>
      exfalso
      simp only [List.cons_append, List.nil_append, List.cons.injEq] at h
      exact hx (h.1 ▸ List.mem_cons_self x xs)
    | cons y ys =>
      simp only [List.cons_append, List.cons.injEq] at h
      have := ih (fun hm => hx (List.mem_cons_of_mem x hm))
        (fun hm => hy (List.mem_cons_of_mem y hm)) h.2
      exact ⟨by rw [h.1, this.1], this.2⟩

theorem mkChunkId_inj {s₁ e₁ s₂ e₂ : Nat}
    (h : mkChunkId s₁ e₁ = mkChunkId s₂ e₂) : s₁ = s₂ ∧ e₁ = e₂ := by
  unfold mkChunkId at h
  have hdata := congrArg String.data h
  simp only [String.data_append] at hdata
  have hcancel :
      (natStr s₁).data ++ '-' :: (natStr e₁).data =
      (natStr s₂).data ++ '-' :: (natStr e₂).data := by
    have h6 : "chunk-".data ++ ((natStr s₁).data ++ '-' :: (natStr e₁).data) =
        "chunk-".data ++ ((natStr s₂).data ++ '-' :: (natStr e₂).data) := by
      simpa [List.append_assoc] using hdata
    exact List.append_cancel_left h6
  have := sep_parse (natStr_no_dash s₁) (natStr_no_dash s₂) hcancel
  constructor
  · exact natStr_injective (String.ext this.1)
  · exact natStr_injective (String.ext this.2)

/-! ### Splitting text into lines

Models Python's `str.splitlines` for the LF, CRLF and CR line
boundaries (Python additionally treats a few rarer control characters
as boundaries; none of the properties below depend on those). -/

/-- Accumulator-based worker for `splitLines`; `acc` holds the current
line reversed.  A trailing line without a final boundary is emitted,
but a trailing boundary does not produce an extra empty line, exactly
as `str.splitlines` behaves. -/
def splitLinesAux : List Char → List Char → List String
  | [], acc => if acc.isEmpty then [] else [String.mk acc.reverse]
  | [c], acc =>
      if c = '\n' ∨ c = '\r' then [String.mk acc.reverse]
      else [String.mk (c :: acc).reverse]
  | c :: c' :: rest, acc =>
      if c = '\n' then String.mk acc.reverse :: splitLinesAux (c' :: rest) []
      else if c = '\r' then
        if c' = '\n' then String.mk acc.reverse :: splitLinesAux rest []
        else String.mk acc.reverse :: splitLinesAux (c' :: rest) []
      else splitLinesAux (c' :: rest) (c :: acc)

/-- Python's `text.splitlines()`. -/
def splitLines (s : String) : List String :=
  splitLinesAux s.data []

theorem splitLinesAux_ne_nil :
    ∀ (cs acc : List Char), cs ≠ [] ∨ acc ≠ [] → splitLinesAux cs acc ≠ [] := by
  intro cs
  induction cs with
  | nil =>
    intro acc h
    rcases h with h | h
    · exact absurd rfl h
    · simp [splitLinesAux, List.isEmpty_iff, h]
  | cons c rest ih =>
    intro acc _
    cases rest with
    | nil =>
      rw [splitLinesAux]
      split <;> simp
    | cons c' rest' =>
      rw [splitLinesAux]
      by_cases hn : c = '\n'
      · simp [hn]
      · by_cases hr : c = '\r'
        · rw [if_neg hn, if_pos hr]
          split <;> simp
        · rw [if_neg hn, if_neg hr]
          exact ih (c :: acc) (Or.inr (by simp))

theorem splitLines_ne_nil {s : String} (h : s ≠ "") : splitLines s ≠ [] := by
  apply splitLinesAux_ne_nil
  left
  intro hdata
  apply h
  cases s with
  | mk data => simp at hdata; rw [hdata]

/-! ### The chunker (`src/backend/app/chunker.py`) -/

/-- One element of the list returned by `chunk_file_text`: the dict
`{"id": ..., "text": ..., "metadata": {"start_line": ..., "end_line": ...}}`
with the metadata sub-dict flattened into two fields. -/
structure Chunk where
  id : String
  text : String
  start_line : Nat
  end_line : Nat
  deriving Repr, DecidableEq

/-- Effective overlap `min(overlap_lines, max_lines - 1) if max_lines > 1 else 0`
from `chunk_file_text`. -/
def effectiveOverlap (maxLines overlapLines : Int) : Int :=
  if 1 < maxLines then min overlapLines (maxLines - 1) else 0

/-- Step `max(1, max_lines - overlap)` from `chunk_file_text`. -/
def stepSize (maxLines overlapLines : Int) : Int :=
  max 1 (maxLines - effectiveOverlap maxLines overlapLines)

theorem stepSize_pos (maxLines overlapLines : Int) :
    0 < (stepSize maxLines overlapLines).toNat := by
  have h1 : (1 : Int) ≤ stepSize maxLines overlapLines :=
    le_max_left 1 (maxLines - effectiveOverlap maxLines overlapLines)
  omega

/-- The `while start_index < total_lines` loop of `chunk_file_text`.
Each iteration slices `lines[start_index:end_index]`, emits one chunk,
and either breaks (when `end_index >= total_lines`) or advances by
`step`.  `hstep` records that the caller's step, `max(1, ...)`, is
positive, which is what makes the loop terminate. -/
def chunkLoop (lines : List String) (maxLines step : Nat) (hstep : 0 < step)
    (startIndex : Nat) : List Chunk :=
  if h : startIndex < lines.length then
    let endIndex := min lines.length (startIndex + maxLines)
    let chunkLines := (lines.drop startIndex).take (endIndex - startIndex)
    let startLine := startIndex + 1
    let endLine := startIndex + chunkLines.length
    let c : Chunk :=
      ⟨mkChunkId startLine endLine, String.intercalate "\n" chunkLines,
        startLine, endLine⟩
    if lines.length ≤ endIndex then [c]
    else c :: chunkLoop lines maxLines step hstep (startIndex + step)
  else []
termination_by lines.length - startIndex
decreasing_by omega

/-- Python `chunk_file_text(text, max_lines, overlap_lines)`; raised
`ValueError`s become `Except.error`. -/
def chunk_file_text (text : String) (maxLines overlapLines : Int) :
    Except String (List Chunk) :=
  if maxLines ≤ 0 then .error "max_lines must be greater than 0"
  else if overlapLines < 0 then .error "overlap_lines must be non-negative"
  else
    let lines := splitLines text
    if lines.isEmpty then .ok []
    else
      .ok (chunkLoop lines maxLines.toNat
        (stepSize maxLines overlapLines).toNat
        (stepSize_pos maxLines overlapLines) 0)

/-- Unfolding of one loop iteration of `chunk_file_text` as a list cons. -/
theorem chunkLoop_cons (L : List String) (M S : Nat) (hstep : 0 < S)
    (start : Nat) (h : start < L.length) :
    chunkLoop L M S hstep start =
      ⟨mkChunkId (start + 1) (min L.length (start + M)),
        String.intercalate "\n"
          ((L.drop start).take (min L.length (start + M) - start)),
        start + 1, min L.length (start + M)⟩ ::
      (if L.length ≤ start + M then []
       else chunkLoop L M S hstep (start + S)) := by
  rw [chunkLoop, dif_pos h]
  have hlen : ((L.drop start).take (min L.length (start + M) - start)).length
      = min L.length (start + M) - start := by
    simp only [List.length_take, List.length_drop]
    omega
  simp only [hlen]
  have hend : start + (min L.length (start + M) - start) = min L.length (start + M) := by
    omega
  rw [hend]
  by_cases hb : L.length ≤ start + M
  · rw [if_pos (le_min le_rfl hb), if_pos hb]
  · rw [if_neg (by omega), if_neg hb]

/-- Every chunk produced from position `start` starts at or after line
`start + 1`, starts within the file, ends at
`min(total_lines, start_line - 1 + max_lines)`, and has the id
`f"chunk-{start_line}-{end_line}"`. -/
theorem chunkLoop_forall (L : List String) (M S : Nat) (hstep : 0 < S) :
    ∀ start, ∀ c ∈ chunkLoop L M S hstep start,
      start + 1 ≤ c.start_line ∧ c.start_line ≤ L.length ∧
      c.end_line = min L.length (c.start_line - 1 + M) ∧
      c.id = mkChunkId c.start_line c.end_line := by
  intro start
  generalize hgas : L.length - start = n
  induction n using Nat.strong_induction_on generalizing start with
  | _ n ih =>
    intro c hc
    by_cases h : start < L.length
    · rw [chunkLoop_cons L M S hstep start h] at hc
      rcases List.mem_cons.mp hc with rfl | hc
      · refine ⟨le_refl _, ?_, ?_, rfl⟩
        · show start + 1 ≤ L.length
          omega
        · show min L.length (start + M) = min L.length (start + 1 - 1 + M)
          omega
      · split at hc
        · simp at hc
        · have := ih (L.length - (start + S)) (by omega) (start + S) rfl c hc
          exact ⟨by omega, this.2⟩
    · rw [chunkLoop, dif_neg h] at hc
      simp at hc

/-- The last chunk produced from any in-range position ends at the last line. -/
theorem chunkLoop_last (L : List String) (M S : Nat) (hstep : 0 < S)
    (hsm : S ≤ M) :
    ∀ start, start < L.length →
      ∃ c, (chunkLoop L M S hstep start).getLast? = some c ∧
        c.end_line = L.length := by
  intro start
  generalize hgas : L.length - start = n
  induction n using Nat.strong_induction_on generalizing start with
  | _ n ih =>
    intro h
    rw [chunkLoop_cons L M S hstep start h]
    by_cases hb : L.length ≤ start + M
    · rw [if_pos hb, List.getLast?_singleton]
      refine ⟨_, rfl, ?_⟩
      show min L.length (start + M) = L.length
      omega
    · rw [if_neg hb]
      have hlt : start + S < L.length := by omega
      obtain ⟨c, hc, hce⟩ := ih (L.length - (start + S)) (by omega) (start + S) rfl hlt
      refine ⟨c, ?_, hce⟩
      have hne : chunkLoop L M S hstep (start + S) ≠ [] := by
        intro hnil
        rw [hnil] at hc
        simp at hc
      cases hrec : chunkLoop L M S hstep (start + S) with
      | nil => exact absurd hrec hne
      | cons d ds =>
        rw [List.getLast?_cons_cons]
        rw [hrec] at hc
        exact hc

/-- Every line from `start + 1` to the end of the file is covered by some
chunk produced from position `start`, provided the step does not exceed
the window size (which the clamp in `chunk_file_text` guarantees). -/
theorem chunkLoop_cover (L : List String) (M S : Nat) (hstep : 0 < S)
    (hsm : S ≤ M) :
    ∀ start, start < L.length →
      ∀ n, start + 1 ≤ n → n ≤ L.length →
        ∃ c ∈ chunkLoop L M S hstep start,
          c.start_line ≤ n ∧ n ≤ c.end_line := by
  intro start
  generalize hgas : L.length - start = n0
  induction n0 using Nat.strong_induction_on generalizing start with
  | _ n0 ih =>
    intro h n hn1 hn2
    rw [chunkLoop_cons L M S hstep start h]
    by_cases hb : L.length ≤ start + M
    · rw [if_pos hb]
      refine ⟨_, List.mem_cons_self _ _, ?_, ?_⟩
      · show start + 1 ≤ n
        omega
      · show n ≤ min L.length (start + M)
        omega
    · rw [if_neg hb]
      by_cases hcov : n ≤ start + M
      · refine ⟨_, List.mem_cons_self _ _, ?_, ?_⟩
        · show start + 1 ≤ n
          omega
        · show n ≤ min L.length (start + M)
          omega
      · have hlt : start + S < L.length := by omega
        obtain ⟨c, hc, hc1, hc2⟩ :=
          ih (L.length - (start + S)) (by omega) (start + S) rfl hlt n (by omega) hn2
        exact ⟨c, List.mem_cons_of_mem _ hc, hc1, hc2⟩

/-- Chunks are produced in strictly increasing `start_line` order. -/
theorem chunkLoop_sorted (L : List String) (M S : Nat) (hstep : 0 < S) :
    ∀ start, (chunkLoop L M S hstep start).Pairwise
      (fun a b => a.start_line < b.start_line) := by
  intro start
  generalize hgas : L.length - start = n0
  induction n0 using Nat.strong_induction_on generalizing start with
  | _ n0 ih =>
    by_cases h : start < L.length
    · rw [chunkLoop_cons L M S hstep start h]
      by_cases hb : L.length ≤ start + M
      · rw [if_pos hb]
        simp
      · rw [if_neg hb]
        refine List.Pairwise.cons ?_ (ih (L.length - (start + S)) (by omega) (start + S) rfl)
        intro c hc
        have := (chunkLoop_forall L M S hstep (start + S) c hc).1
        show start + 1 < c.start_line
        omega
    · rw [chunkLoop, dif_neg h]
      exact List.Pairwise.nil

theorem chunkLoop_congr (L : List String) {M M' S S' : Nat}
    (hM : M = M') (hS : S = S') (h : 0 < S) (h' : 0 < S') (st : Nat) :
    chunkLoop L M S h st = chunkLoop L M' S' h' st := by
  subst hM
  subst hS
  rfl

theorem stepSize_toNat_le (m o : Int) (hm : 0 < m) (ho : 0 ≤ o) :
    (stepSize m o).toNat ≤ m.toNat := by
  unfold stepSize effectiveOverlap
  split <;> omega

theorem chunk_file_text_ok (text : String) (m o : Int) (hm : 0 < m)
    (ho : 0 ≤ o) (hne : splitLines text ≠ []) :
    chunk_file_text text m o =
      Except.ok (chunkLoop (splitLines text) m.toNat (stepSize m o).toNat
        (stepSize_pos m o) 0) := by
  rw [chunk_file_text, if_neg (by omega), if_neg (by omega)]
  show (if (splitLines text).isEmpty then Except.ok [] else _) = _
  rw [if_neg (by simpa [List.isEmpty_iff] using hne)]

theorem chunk_file_text_empty (m o : Int) (hm : 0 < m) (ho : 0 ≤ o) :
    chunk_file_text "" m o = Except.ok [] := by
  rw [chunk_file_text, if_neg (by omega), if_neg (by omega)]
  show (if (splitLines "").isEmpty then Except.ok [] else _) = _
  rw [if_pos (show (splitLines "").isEmpty = true from rfl)]

theorem chunk_file_text_total (text : String) (m o : Int) (hm : 0 < m)
    (ho : 0 ≤ o) : ∃ cs, chunk_file_text text m o = Except.ok cs := by
  by_cases hsplit : splitLines text = []
  · refine ⟨[], ?_⟩
    rw [chunk_file_text, if_neg (by omega), if_neg (by omega)]
    show (if (splitLines text).isEmpty then Except.ok [] else _) = _
    rw [if_pos (by simpa [List.isEmpty_iff] using hsplit)]
  · exact ⟨_, chunk_file_text_ok text m o hm ho hsplit⟩

/-- C2: for every non-empty text and valid `max_lines`/`overlap_lines`,
the chunk line ranges union to exactly `[1, total_lines]`, the last
chunk ends at `total_lines`, start lines strictly increase and all
chunk ids are pairwise distinct; for empty text the result is empty. -/
theorem chunk_file_text_ranges :
    (∀ (text : String) (m o : Int), text ≠ "" → 0 < m → 0 ≤ o →
      ∃ cs, chunk_file_text text m o = Except.ok cs ∧
        (∀ n : Nat, (∃ c ∈ cs, c.start_line ≤ n ∧ n ≤ c.end_line) ↔
          1 ≤ n ∧ n ≤ (splitLines text).length) ∧
        (∃ c, cs.getLast? = some c ∧ c.end_line = (splitLines text).length) ∧
        cs.Pairwise (fun a b => a.start_line < b.start_line) ∧
        (cs.map Chunk.id).Nodup) ∧
    (∀ m o : Int, 0 < m → 0 ≤ o → chunk_file_text "" m o = Except.ok []) := by
  constructor
  · intro text m o htext hm ho
    have hne : splitLines text ≠ [] := splitLines_ne_nil htext
    have hT : 0 < (splitLines text).length := List.length_pos.mpr hne
    have hSM : (stepSize m o).toNat ≤ m.toNat := stepSize_toNat_le m o hm ho
    refine ⟨_, chunk_file_text_ok text m o hm ho hne, ?_, ?_, ?_, ?_⟩
    · intro n
      constructor
      · rintro ⟨c, hc, h1, h2⟩
        have hf := chunkLoop_forall (splitLines text) m.toNat
          (stepSize m o).toNat (stepSize_pos m o) 0 c hc
        have he : c.end_line ≤ (splitLines text).length := by
          rw [hf.2.2.1]; omega
        exact ⟨by omega, by omega⟩
      · rintro ⟨h1, h2⟩
        exact chunkLoop_cover (splitLines text) m.toNat (stepSize m o).toNat
          (stepSize_pos m o) hSM 0 hT n (by omega) h2
    · exact chunkLoop_last (splitLines text) m.toNat (stepSize m o).toNat
        (stepSize_pos m o) hSM 0 hT
    · exact chunkLoop_sorted (splitLines text) m.toNat (stepSize m o).toNat
        (stepSize_pos m o) 0
    · have hp := chunkLoop_sorted (splitLines text) m.toNat
        (stepSize m o).toNat (stepSize_pos m o) 0
      have hforall := chunkLoop_forall (splitLines text) m.toNat
        (stepSize m o).toNat (stepSize_pos m o) 0
      have hp2 : (chunkLoop (splitLines text) m.toNat (stepSize m o).toNat
          (stepSize_pos m o) 0).Pairwise (fun a b => a.id ≠ b.id) := by
        refine hp.imp_of_mem ?_
        intro a b ha hb hlt heq
        have hida := (hforall a ha).2.2.2
        have hidb := (hforall b hb).2.2.2
        rw [hida, hidb] at heq
        have := (mkChunkId_inj heq).1
        omega
      have := hp2.map Chunk.id (fun a b h => h)
      exact this
  · intro m o hm ho
    exact chunk_file_text_empty m o hm ho

/-- Witness for C2 at `text = "ab\ncd"`, `max_lines = 2`, `overlap_lines = 1`. -/
theorem chunk_file_text_ranges_witness :
    (∃ cs, chunk_file_text "ab\ncd" 2 1 = Except.ok cs ∧
      (∀ n : Nat, (∃ c ∈ cs, c.start_line ≤ n ∧ n ≤ c.end_line) ↔
        1 ≤ n ∧ n ≤ (splitLines "ab\ncd").length) ∧
      (∃ c, cs.getLast? = some c ∧ c.end_line = (splitLines "ab\ncd").length) ∧
      cs.Pairwise (fun a b => a.start_line < b.start_line) ∧
      (cs.map Chunk.id).Nodup) ∧
    chunk_file_text "" 2 1 = Except.ok [] :=
  ⟨chunk_file_text_ranges.1 "ab\ncd" 2 1 (by decide) (by decide) (by decide),
   chunk_file_text_ranges.2 2 1 (by decide) (by decide)⟩

/-- C3: a 450-line input with `max_lines = 200`, `overlap_lines = 20`
produces exactly 3 chunks with ranges (1,200), (181,380), (361,450). -/
theorem chunk_file_text_450 (text : String)
    (h : (splitLines text).length = 450) :
    ∃ cs, chunk_file_text text 200 20 = Except.ok cs ∧ cs.length = 3 ∧
      cs.map (fun c => (c.start_line, c.end_line)) =
        [(1, 200), (181, 380), (361, 450)] := by
  have hne : splitLines text ≠ [] := by
    intro h0
    rw [h0] at h
    simp at h
  refine ⟨_, chunk_file_text_ok text 200 20 (by norm_num) (by norm_num) hne,
    ?_, ?_⟩ <;>
  · rw [chunkLoop_congr (splitLines text) (show ((200:Int)).toNat = 200 from rfl)
      (show ((stepSize 200 20)).toNat = 180 by decide)
      (stepSize_pos 200 20) (by norm_num) 0]
    rw [chunkLoop_cons _ _ _ _ 0 (by omega), if_neg (by omega)]
    rw [chunkLoop_cons _ _ _ _ 180 (by omega), if_neg (by omega)]
    rw [chunkLoop_cons _ _ _ _ 360 (by omega), if_pos (by omega)]
    simp [h]

/-- Witness for C3 on a concrete 450-line text. -/
theorem chunk_file_text_450_witness :
    (splitLines (String.mk (List.replicate 450 '\n'))).length = 450 ∧
    ∃ cs, chunk_file_text (String.mk (List.replicate 450 '\n')) 200 20 =
        Except.ok cs ∧ cs.length = 3 ∧
      cs.map (fun c => (c.start_line, c.end_line)) =
        [(1, 200), (181, 380), (361, 450)] :=
  ⟨by set_option maxRecDepth 8000 in decide,
   chunk_file_text_450 _ (by set_option maxRecDepth 8000 in decide)⟩

/-- C8: the overlap clamp and the `max(1, ...)` step bound make the
window advance on every iteration, so chunking terminates (returns a
value) for every text and all valid parameters, including
`overlap_lines ≥ max_lines` and `max_lines = 1`. -/
theorem chunk_file_text_terminates :
    ∀ (text : String) (m o : Int), 0 < m → 0 ≤ o →
      effectiveOverlap m o = (if 1 < m then min o (m - 1) else 0) ∧
      stepSize m o = max 1 (m - effectiveOverlap m o) ∧
      1 ≤ stepSize m o ∧
      ∃ cs, chunk_file_text text m o = Except.ok cs := by
  intro text m o hm ho
  exact ⟨rfl, rfl, le_max_left _ _, chunk_file_text_total text m o hm ho⟩

/-- Witness for C8 at `max_lines = 1`, `overlap_lines = 5` (an overlap
larger than the window). -/
theorem chunk_file_text_terminates_witness :
    effectiveOverlap 1 5 = (if (1:Int) < 1 then min 5 (1 - 1) else 0) ∧
    stepSize 1 5 = max 1 (1 - effectiveOverlap 1 5) ∧
    (1:Int) ≤ stepSize 1 5 ∧
    ∃ cs, chunk_file_text "hello" 1 5 = Except.ok cs :=
  chunk_file_text_terminates "hello" 1 5 (by decide) (by decide)

/-! ### The vector store (`src/backend/app/vector_store.py`)

Python `float`s are modelled by `ℝ` and `math.sqrt` by `Real.sqrt`;
`ValueError` becomes `Except.error`.  `add_vectors` returns the pair of
the call's outcome and the store after the call: the code mutates
`self.data` only in its final `extend`, after all validation, so on
every error path the returned store equals the input store. -/

abbrev Vec := List ℝ

/-- An element of `items`: `StoredItem = Tuple[str, Vector, Dict[str, object]]`,
with the opaque metadata dict as a type parameter `μ`. -/
abbrev StoredItem (μ : Type) := String × Vec × μ

/-- The `self.data` dict of `SimpleVectorStore`, keyed by repo id.  A key
absent from the dict behaves exactly like an empty list (both
`self.data.get(repo_id)` returning `None` and an empty list fail the
`if not repo_items` test), so the dict is modelled as a total function. -/
abbrev Store (μ : Type) := String → List (StoredItem μ)

/-- One element of the list returned by `SimpleVectorStore.search`:
the dict `{"id": ..., "score": ..., "metadata": ...}`. -/
structure SearchResult (μ : Type) where
  id : String
  score : ℝ
  metadata : μ

/-- Python `sum(x * x for x in v)`, the squared L2 norm. -/
def sumSq (v : Vec) : ℝ := (v.map fun x => x * x).sum

/-- Python `sum(x * y for x, y in zip(a, b))`. -/
def dot (a b : Vec) : ℝ := ((a.zip b).map fun p => p.1 * p.2).sum

/-- The store with no repo partitions (`SimpleVectorStore.__init__`). -/
def emptyStore (μ : Type) : Store μ := fun _ => []

namespace SimpleVectorStore

/-- Models `SimpleVectorStore._cosine_similarity`; the `ValueError` raised on a
dimensionality mismatch becomes `Except.error`. -/
noncomputable def cosine_similarity (a b : Vec) : Except String ℝ :=
  if a.length ≠ b.length then
    .error "Vectors must have the same dimensionality"
  else if Real.sqrt (sumSq a) = 0 ∨ Real.sqrt (sumSq b) = 0 then .ok 0
  else .ok (dot a b / (Real.sqrt (sumSq a) * Real.sqrt (sumSq b)))

/-- The value `_cosine_similarity` returns when the dimensions agree. -/
noncomputable def cosValue (a b : Vec) : ℝ :=
  if Real.sqrt (sumSq a) = 0 ∨ Real.sqrt (sumSq b) = 0 then 0
  else dot a b / (Real.sqrt (sumSq a) * Real.sqrt (sumSq b))

/-- Models `SimpleVectorStore._normalize`.  Note that in the zero-norm branch the
Python code returns the caller's list object itself, not a copy. -/
noncomputable def normalize (vector : Vec) : Vec :=
  if Real.sqrt (sumSq vector) = 0 then vector
  else vector.map fun value => value / Real.sqrt (sumSq vector)

/-- The validation/normalization loop of `add_vectors` that builds
`normalized_items` before the store is touched; the first empty vector
aborts with `ValueError`. -/
noncomputable def normalizeItems {μ : Type} :
    List (StoredItem μ) → Except String (List (StoredItem μ))
  | [] => .ok []
  | (chunkId, vector, metadata) :: rest =>
      if vector.isEmpty then
        .error "Each vector must be a non-empty list of floats"
      else
        match normalizeItems rest with
        | .error e => .error e
        | .ok others => .ok ((chunkId, normalize vector, metadata) :: others)

/-- Models `SimpleVectorStore.add_vectors`.  Returns the outcome together with
the store after the call. -/
noncomputable def add_vectors {μ : Type} (store : Store μ) (repoId : String)
    (items : List (StoredItem μ)) : Except String Unit × Store μ :=
  if repoId = "" then (.error "repo_id must be non-empty", store)
  else if items.isEmpty then (.ok (), store)
  else
    match normalizeItems items with
    | .error e => (.error e, store)
    | .ok normalizedItems =>
        (.ok (), fun r => if r = repoId then store r ++ normalizedItems else store r)

/-- The scoring loop of `search`: one result per stored item, in
insertion order; the first dimensionality mismatch aborts the call. -/
noncomputable def scoreItems {μ : Type} (query : Vec) :
    List (StoredItem μ) → Except String (List (SearchResult μ))
  | [] => .ok []
  | (chunkId, vector, metadata) :: rest =>
      match cosine_similarity query vector with
      | .error e => .error e
      | .ok score =>
          match scoreItems query rest with
          | .error e => .error e
          | .ok others => .ok (⟨chunkId, score, metadata⟩ :: others)

/-- The comparison used by `results.sort(key=..., reverse=True)`:
`a` may precede `b` exactly when `a.score ≥ b.score`.  Python's sort is
stable, which `List.mergeSort` models exactly. -/
noncomputable def scoreLe {μ : Type} (a b : SearchResult μ) : Bool :=
  decide (b.score ≤ a.score)

/-- Models `SimpleVectorStore.search`. -/
noncomputable def search {μ : Type} (store : Store μ) (repoId : String)
    (queryVector : Vec) (k : Int) : Except String (List (SearchResult μ)) :=
  if k ≤ 0 then .ok []
  else if (store repoId).isEmpty then .ok []
  else
    match scoreItems (normalize queryVector) (store repoId) with
    | .error e => .error e
    | .ok results => .ok ((results.mergeSort scoreLe).take k.toNat)

end SimpleVectorStore

namespace Embeddings

/-- The module-level `_normalize` of `embeddings.py`; unlike the store's
`_normalize` it returns a fresh all-zero list in the zero-norm branch. -/
noncomputable def normalize (vector : Vec) : Vec :=
  if Real.sqrt (sumSq vector) = 0 then vector.map fun _ => 0
  else vector.map fun value => value / Real.sqrt (sumSq vector)

/-- Modelled from the source up to hashing: `_hex_stream` produces a
SHA-256-derived hex stream via `hashlib` (an external library), from
which `embed_texts` takes `dim` byte values `int(hex_data[i:i+2], 16)`.
The byte stream is abstracted as `byteAt text i`; everything after it
(`/ 255.0`, truncation to `dim` values, `_normalize`) follows
`embed_texts` exactly. -/
noncomputable def embed_texts (byteAt : String → Nat → Nat)
    (texts : List String) (dim : Int) : Except String (List Vec) :=
  if dim ≤ 0 then .error "dim must be positive"
  else .ok (texts.map fun text =>
    normalize ((List.range dim.toNat).map fun i => (byteAt text i : ℝ) / 255))

end Embeddings

/-! ### Arithmetic facts about `sumSq`, `dot` and normalization -/

theorem sumSq_nil : sumSq [] = 0 := rfl

theorem sumSq_cons (x : ℝ) (xs : Vec) : sumSq (x :: xs) = x * x + sumSq xs := by
  simp [sumSq]

theorem sumSq_nonneg (v : Vec) : 0 ≤ sumSq v := by
  induction v with
  | nil => simp [sumSq]
  | cons x xs ih =>
    rw [sumSq_cons]
    have := mul_self_nonneg x
    linarith

theorem sumSq_eq_zero_iff (v : Vec) : sumSq v = 0 ↔ ∀ x ∈ v, x = 0 := by
  induction v with
  | nil => simp [sumSq]
  | cons x xs ih =>
    rw [sumSq_cons]
    constructor
    · intro h
      have h1 := mul_self_nonneg x
      have h2 := sumSq_nonneg xs
      have hx : x * x = 0 := by linarith
      have hxs : sumSq xs = 0 := by linarith
      intro y hy
      rcases List.mem_cons.mp hy with rfl | hy
      · exact mul_self_eq_zero.mp hx
      · exact (ih.mp hxs) y hy
    · intro h
      have hx : x = 0 := h x (List.mem_cons_self x xs)
      have hxs : sumSq xs = 0 := ih.mpr fun y hy => h y (List.mem_cons_of_mem x hy)
      rw [hx, hxs]
      ring

theorem sqrt_sumSq_eq_zero_iff (v : Vec) :
    Real.sqrt (sumSq v) = 0 ↔ sumSq v = 0 := by
  rw [Real.sqrt_eq_zero (sumSq_nonneg v)]

theorem sumSq_map_div (v : Vec) (c : ℝ) :
    sumSq (v.map fun x => x / c) = sumSq v / c ^ 2 := by
  induction v with
  | nil => simp [sumSq]
  | cons x xs ih =>
    simp only [List.map_cons]
    rw [sumSq_cons, sumSq_cons, ih]
    field_simp
    ring

theorem dot_self (v : Vec) : dot v v = sumSq v := by
  induction v with
  | nil => rfl
  | cons x xs ih =>
    simp only [dot, sumSq, List.zip_cons_cons, List.map_cons, List.sum_cons] at *
    rw [ih]

theorem dot_comm (a b : Vec) : dot a b = dot b a := by
  induction a generalizing b with
  | nil => cases b <;> rfl
  | cons x xs ih =>
    cases b with
    | nil => rfl
    | cons y ys =>
      simp only [dot, List.zip_cons_cons, List.map_cons, List.sum_cons] at *
      rw [ih ys, mul_comm]

theorem sub_sumSq (a : Vec) : ∀ b : Vec, a.length = b.length →
    sumSq (List.zipWith (fun x y => x - y) a b) =
      sumSq a + sumSq b - 2 * dot a b := by
  induction a with
  | nil =>
    intro b hb
    cases b with
    | nil => simp [sumSq, dot]
    | cons y ys => simp at hb
  | cons x xs ih =>
    intro b hb
    cases b with
    | nil => simp at hb
    | cons y ys =>
      simp only [List.zipWith_cons_cons]
      rw [sumSq_cons, sumSq_cons, sumSq_cons, ih ys (by simpa using hb)]
      simp only [dot, List.zip_cons_cons, List.map_cons, List.sum_cons]
      ring

theorem eq_of_zipWith_sub_zero (a : Vec) : ∀ b : Vec, a.length = b.length →
    (∀ z ∈ List.zipWith (fun x y => x - y) a b, z = 0) → a = b := by
  induction a with
  | nil =>
    intro b hb _
    cases b with
    | nil => rfl
    | cons y ys => simp at hb
  | cons x xs ih =>
    intro b hb hz
    cases b with
    | nil => simp at hb
    | cons y ys =>
      simp only [List.zipWith_cons_cons] at hz
      have hx : x - y = 0 := hz _ (List.mem_cons_self _ _)
      have := ih ys (by simpa using hb)
        (fun z hzz => hz z (List.mem_cons_of_mem _ hzz))
      rw [sub_eq_zero.mp hx, this]

/-- Cauchy–Schwarz for unit vectors, with the equality case. -/
theorem dot_le_one {a b : Vec} (h : a.length = b.length)
    (ha : sumSq a = 1) (hb : sumSq b = 1) :
    dot a b ≤ 1 ∧ (dot a b = 1 → a = b) := by
  have hs := sub_sumSq a b h
  have hnn := sumSq_nonneg (List.zipWith (fun x y => x - y) a b)
  rw [ha, hb] at hs
  constructor
  · linarith
  · intro hd
    rw [hd] at hs
    have hz : sumSq (List.zipWith (fun x y => x - y) a b) = 0 := by linarith
    exact eq_of_zipWith_sub_zero a b h ((sumSq_eq_zero_iff _).mp hz)

namespace SimpleVectorStore

theorem normalize_length (v : Vec) : (normalize v).length = v.length := by
  unfold normalize
  split <;> simp

theorem normalize_of_zero {v : Vec} (h : sumSq v = 0) : normalize v = v := by
  unfold normalize
  rw [if_pos ((sqrt_sumSq_eq_zero_iff v).mpr h)]

theorem normalize_sumSq {v : Vec} (h : sumSq v ≠ 0) :
    sumSq (normalize v) = 1 := by
  unfold normalize
  rw [if_neg fun h0 => h ((sqrt_sumSq_eq_zero_iff v).mp h0)]
  rw [sumSq_map_div, Real.sq_sqrt (sumSq_nonneg v)]
  exact div_self h

/-- Every normalized vector is a unit vector or is the all-zero vector. -/
theorem normalize_spec (v : Vec) :
    Real.sqrt (sumSq (normalize v)) = 1 ∨
      normalize v = List.replicate (normalize v).length 0 := by
  by_cases h : sumSq v = 0
  · right
    rw [normalize_of_zero h]
    exact List.eq_replicate_of_mem fun x hx => (sumSq_eq_zero_iff v).mp h x hx
  · left
    rw [normalize_sumSq h, Real.sqrt_one]

end SimpleVectorStore

namespace Embeddings

theorem normalize_unit_or_zero (v : Vec) :
    Real.sqrt (sumSq (normalize v)) = 1 ∨
      normalize v = List.replicate (normalize v).length 0 := by
  by_cases h : sumSq v = 0
  · right
    unfold normalize
    rw [if_pos ((sqrt_sumSq_eq_zero_iff v).mpr h)]
    refine List.eq_replicate_of_mem ?_
    intro b hb
    rcases List.mem_map.mp hb with ⟨x, hx, rfl⟩
    rfl
  · left
    unfold normalize
    rw [if_neg fun h0 => h ((sqrt_sumSq_eq_zero_iff v).mp h0)]
    rw [show (fun value => value / Real.sqrt (sumSq v)) =
      fun x => x / Real.sqrt (sumSq v) from rfl]
    rw [sumSq_map_div, Real.sq_sqrt (sumSq_nonneg v), div_self h, Real.sqrt_one]

end Embeddings

/-! ### Characterizations of the store operations -/

namespace SimpleVectorStore

theorem cosine_similarity_ok {a b : Vec} (h : a.length = b.length) :
    cosine_similarity a b = Except.ok (cosValue a b) := by
  unfold cosine_similarity cosValue
  rw [if_neg (by simpa using h)]
  split <;> rfl

theorem cosine_similarity_error {a b : Vec} (h : a.length ≠ b.length) :
    cosine_similarity a b =
      Except.error "Vectors must have the same dimensionality" := by
  unfold cosine_similarity
  rw [if_pos (by simpa using h)]

theorem normalizeItems_eq {μ : Type} (items : List (StoredItem μ))
    (h : ∀ it ∈ items, it.2.1 ≠ []) :
    normalizeItems items =
      Except.ok (items.map fun it => (it.1, normalize it.2.1, it.2.2)) := by
  induction items with
  | nil => rfl
  | cons it rest ih =>
    obtain ⟨chunkId, vector, metadata⟩ := it
    rw [normalizeItems]
    rw [if_neg (by
      simp only [List.isEmpty_iff]
      exact h (chunkId, vector, metadata) (List.mem_cons_self _ _))]
    rw [ih fun x hx => h x (List.mem_cons_of_mem _ hx)]
    rfl

theorem normalizeItems_error {μ : Type} (items : List (StoredItem μ))
    (h : ∃ it ∈ items, it.2.1 = []) :
    ∃ e, normalizeItems items = Except.error e := by
  induction items with
  | nil =>
    obtain ⟨x, hx, _⟩ := h
    exact absurd hx (List.not_mem_nil x)
  | cons it rest ih =>
    obtain ⟨chunkId, vector, metadata⟩ := it
    rw [normalizeItems]
    by_cases hv : vector.isEmpty
    · rw [if_pos hv]
      exact ⟨_, rfl⟩
    · rw [if_neg hv]
      rcases h with ⟨x, hx, hxe⟩
      rcases List.mem_cons.mp hx with rfl | hx
      · exact absurd (by simpa [List.isEmpty_iff] using hxe) hv
      · obtain ⟨e, he⟩ := ih ⟨x, hx, hxe⟩
        rw [he]
        exact ⟨e, rfl⟩

theorem normalizeItems_ok_imp {μ : Type} {items out : List (StoredItem μ)}
    (h : normalizeItems items = Except.ok out) :
    (∀ it ∈ items, it.2.1 ≠ []) ∧
      out = items.map fun it => (it.1, normalize it.2.1, it.2.2) := by
  by_cases hne : ∀ it ∈ items, it.2.1 ≠ []
  · refine ⟨hne, ?_⟩
    rw [normalizeItems_eq items hne] at h
    exact (Except.ok.injEq _ _ ▸ h).symm
  · push_neg at hne
    obtain ⟨x, hx, hxe⟩ := hne
    obtain ⟨e, he⟩ := normalizeItems_error items ⟨x, hx, hxe⟩
    rw [he] at h
    cases h

theorem scoreItems_eq {μ : Type} (q : Vec) (items : List (StoredItem μ))
    (h : ∀ it ∈ items, it.2.1.length = q.length) :
    scoreItems q items =
      Except.ok (items.map fun it => ⟨it.1, cosValue q it.2.1, it.2.2⟩) := by
  induction items with
  | nil => rfl
  | cons it rest ih =>
    obtain ⟨chunkId, vector, metadata⟩ := it
    rw [scoreItems]
    rw [cosine_similarity_ok
      (h (chunkId, vector, metadata) (List.mem_cons_self _ _)).symm]
    rw [ih fun x hx => h x (List.mem_cons_of_mem _ hx)]
    rfl

theorem scoreItems_error {μ : Type} (q : Vec) (items : List (StoredItem μ))
    (h : ∃ it ∈ items, it.2.1.length ≠ q.length) :
    ∃ e, scoreItems q items = Except.error e := by
  induction items with
  | nil =>
    obtain ⟨x, hx, _⟩ := h
    exact absurd hx (List.not_mem_nil x)
  | cons it rest ih =>
    obtain ⟨chunkId, vector, metadata⟩ := it
    rw [scoreItems]
    by_cases hv : q.length = vector.length
    · rw [cosine_similarity_ok hv]
      rcases h with ⟨x, hx, hxe⟩
      rcases List.mem_cons.mp hx with rfl | hx
      · exact absurd hv.symm hxe
      · obtain ⟨e, he⟩ := ih ⟨x, hx, hxe⟩
        rw [he]
        exact ⟨e, rfl⟩
    · rw [cosine_similarity_error hv]
      exact ⟨_, rfl⟩

theorem scoreItems_ok_imp {μ : Type} {q : Vec} {items : List (StoredItem μ)}
    {out : List (SearchResult μ)} (h : scoreItems q items = Except.ok out) :
    (∀ it ∈ items, it.2.1.length = q.length) ∧
      out = items.map fun it => ⟨it.1, cosValue q it.2.1, it.2.2⟩ := by
  by_cases hall : ∀ it ∈ items, it.2.1.length = q.length
  · refine ⟨hall, ?_⟩
    rw [scoreItems_eq q items hall] at h
    exact (Except.ok.injEq _ _ ▸ h).symm
  · push_neg at hall
    obtain ⟨x, hx, hxe⟩ := hall
    obtain ⟨e, he⟩ := scoreItems_error q items ⟨x, hx, hxe⟩
    rw [he] at h
    cases h

theorem search_eq {μ : Type} (store : Store μ) (repoId : String) (q : Vec)
    (k : Int) (hk : 0 < k) (hne : store repoId ≠ []) :
    search store repoId q k =
      match scoreItems (normalize q) (store repoId) with
      | .error e => .error e
      | .ok results => .ok ((results.mergeSort scoreLe).take k.toNat) := by
  unfold search
  rw [if_neg (by omega), if_neg (by simpa [List.isEmpty_iff] using hne)]

theorem search_k_nonpos {μ : Type} (store : Store μ) (repoId : String)
    (q : Vec) (k : Int) (hk : k ≤ 0) : search store repoId q k = .ok [] := by
  unfold search
  rw [if_pos hk]

theorem search_empty_partition {μ : Type} (store : Store μ) (repoId : String)
    (q : Vec) (k : Int) (hne : store repoId = []) :
    search store repoId q k = .ok [] := by
  unfold search
  by_cases hk : k ≤ 0
  · rw [if_pos hk]
  · rw [if_neg hk, if_pos (by simpa [List.isEmpty_iff] using hne)]

theorem scoreLe_trans {μ : Type} : ∀ a b c : SearchResult μ,
    scoreLe a b → scoreLe b c → scoreLe a c := by
  intro a b c hab hbc
  simp only [scoreLe, decide_eq_true_eq] at *
  exact le_trans hbc hab

theorem scoreLe_total {μ : Type} : ∀ a b : SearchResult μ,
    scoreLe a b || scoreLe b a := by
  intro a b
  simp only [scoreLe, Bool.or_eq_true, decide_eq_true_eq]
  exact le_total _ _

/-- Stability of the sort under a score-constant predicate: filtering the
sorted list by one score value gives exactly the filtered input. -/
theorem filter_mergeSort_of_const {μ : Type} (scored : List (SearchResult μ))
    (p : SearchResult μ → Bool)
    (hp : ∀ a b, p a = true → p b = true → scoreLe a b = true) :
    (scored.mergeSort scoreLe).filter p = scored.filter p := by
  have hc_pair : (scored.filter p).Pairwise (fun a b => scoreLe a b = true) :=
    List.pairwise_of_forall_mem_list fun a ha b hb =>
      hp a b (List.mem_filter.mp ha).2 (List.mem_filter.mp hb).2
  have h1 : List.Sublist (scored.filter p) (scored.mergeSort scoreLe) :=
    List.sublist_mergeSort scoreLe_trans scoreLe_total hc_pair
      (List.filter_sublist scored)
  have h2 : List.Sublist ((scored.filter p).filter p)
      ((scored.mergeSort scoreLe).filter p) :=
    h1.filter p
  rw [List.filter_filter] at h2
  have h2' : List.Sublist (scored.filter p)
      ((scored.mergeSort scoreLe).filter p) := by
    simpa [Bool.and_self] using h2
  have hperm : List.Perm ((scored.mergeSort scoreLe).filter p) (scored.filter p) :=
    (List.mergeSort_perm scored scoreLe).filter p
  exact (h2'.eq_of_length hperm.length_eq.symm).symm

end SimpleVectorStore

namespace SimpleVectorStore

theorem add_vectors_error_repo {μ : Type} (store : Store μ)
    (items : List (StoredItem μ)) :
    add_vectors store "" items = (.error "repo_id must be non-empty", store) := by
  unfold add_vectors
  rw [if_pos rfl]

theorem add_vectors_noop {μ : Type} (store : Store μ) (repoId : String)
    (hrid : repoId ≠ "") : add_vectors store repoId [] = (.ok (), store) := by
  unfold add_vectors
  rw [if_neg hrid, if_pos (show ([] : List (StoredItem μ)).isEmpty = true from rfl)]

theorem add_vectors_invalid_vec {μ : Type} (store : Store μ) (repoId : String)
    (items : List (StoredItem μ)) (hrid : repoId ≠ "")
    (hempty : ∃ it ∈ items, it.2.1 = []) :
    ∃ e, add_vectors store repoId items = (.error e, store) := by
  have hne : items ≠ [] := by
    rintro rfl
    obtain ⟨x, hx, _⟩ := hempty
    exact absurd hx (List.not_mem_nil x)
  unfold add_vectors
  rw [if_neg hrid, if_neg (by simpa [List.isEmpty_iff] using hne)]
  obtain ⟨e, he⟩ := normalizeItems_error items hempty
  rw [he]
  exact ⟨e, rfl⟩

theorem add_vectors_ok {μ : Type} (store : Store μ) (repoId : String)
    (items : List (StoredItem μ)) (hrid : repoId ≠ "")
    (hall : ∀ it ∈ items, it.2.1 ≠ []) :
    add_vectors store repoId items =
      (.ok (), fun r => if r = repoId then
        store r ++ items.map fun it => (it.1, normalize it.2.1, it.2.2)
      else store r) := by
  unfold add_vectors
  rw [if_neg hrid]
  by_cases hitems : items = []
  · subst hitems
    rw [if_pos (show ([] : List (StoredItem μ)).isEmpty = true from rfl)]
    refine Prod.ext rfl ?_
    funext r
    show store r = if r = repoId then
      store r ++ List.map (fun it => (it.1, normalize it.2.1, it.2.2))
        ([] : List (StoredItem μ)) else store r
    split <;> simp
  · rw [if_neg (by simpa [List.isEmpty_iff] using hitems)]
    rw [normalizeItems_eq items hall]

/-- Every call to `add_vectors` either leaves the store unchanged (all
error paths, and the empty-items no-op restated through the append) or
appends the normalized batch to the addressed partition. -/
theorem add_vectors_store_cases {μ : Type} {store : Store μ} {repoId : String}
    {items : List (StoredItem μ)} {r : Except String Unit} {store' : Store μ}
    (heq : add_vectors store repoId items = (r, store')) :
    store' = store ∨
      ((∀ it ∈ items, it.2.1 ≠ []) ∧
        store' = fun rr => if rr = repoId then
          store rr ++ items.map fun it => (it.1, normalize it.2.1, it.2.2)
        else store rr) := by
  by_cases hrid : repoId = ""
  · subst hrid
    rw [add_vectors_error_repo] at heq
    exact Or.inl (Prod.ext_iff.mp heq).2.symm
  · by_cases hall : ∀ it ∈ items, it.2.1 ≠ []
    · rw [add_vectors_ok store repoId items hrid hall] at heq
      exact Or.inr ⟨hall, (Prod.ext_iff.mp heq).2.symm⟩
    · push_neg at hall
      obtain ⟨x, hx, hxe⟩ := hall
      obtain ⟨e, he⟩ := add_vectors_invalid_vec store repoId items hrid ⟨x, hx, hxe⟩
      rw [he] at heq
      exact Or.inl (Prod.ext_iff.mp heq).2.symm

end SimpleVectorStore

/-- Invariant: every stored vector is a unit vector or the all-zero
vector (it was normalized on insertion). -/
def NormInv {μ : Type} (store : Store μ) : Prop :=
  ∀ r, ∀ it ∈ store r,
    Real.sqrt (sumSq it.2.1) = 1 ∨ it.2.1 = List.replicate it.2.1.length 0

/-- Invariant: every stored vector is non-empty (`add_vectors` rejects
empty vectors). -/
def VecsNonEmpty {μ : Type} (store : Store μ) : Prop :=
  ∀ r, ∀ it ∈ store r, it.2.1 ≠ []

theorem NormInv_empty (μ : Type) : NormInv (emptyStore μ) := by
  intro r it hit
  exact absurd hit (List.not_mem_nil it)

theorem VecsNonEmpty_empty (μ : Type) : VecsNonEmpty (emptyStore μ) := by
  intro r it hit
  exact absurd hit (List.not_mem_nil it)

theorem NormInv_add_vectors {μ : Type} {store : Store μ} {repoId : String}
    {items : List (StoredItem μ)} {r : Except String Unit} {store' : Store μ}
    (hinv : NormInv store)
    (heq : SimpleVectorStore.add_vectors store repoId items = (r, store')) :
    NormInv store' := by
  rcases SimpleVectorStore.add_vectors_store_cases heq with rfl | ⟨hall, rfl⟩
  · exact hinv
  · intro rr it hit
    simp only [] at hit
    by_cases hr : rr = repoId
    · rw [if_pos hr] at hit
      rcases List.mem_append.mp hit with hold | hnew
      · exact hinv rr it hold
      · rcases List.mem_map.mp hnew with ⟨x, hx, rfl⟩
        exact SimpleVectorStore.normalize_spec x.2.1
    · rw [if_neg hr] at hit
      exact hinv rr it hit

theorem VecsNonEmpty_add_vectors {μ : Type} {store : Store μ} {repoId : String}
    {items : List (StoredItem μ)} {r : Except String Unit} {store' : Store μ}
    (hinv : VecsNonEmpty store)
    (heq : SimpleVectorStore.add_vectors store repoId items = (r, store')) :
    VecsNonEmpty store' := by
  rcases SimpleVectorStore.add_vectors_store_cases heq with rfl | ⟨hall, rfl⟩
  · exact hinv
  · intro rr it hit
    simp only [] at hit
    by_cases hr : rr = repoId
    · rw [if_pos hr] at hit
      rcases List.mem_append.mp hit with hold | hnew
      · exact hinv rr it hold
      · rcases List.mem_map.mp hnew with ⟨x, hx, rfl⟩
        show SimpleVectorStore.normalize x.2.1 ≠ []
        intro h0
        have := congrArg List.length h0
        rw [SimpleVectorStore.normalize_length] at this
        exact hall x hx (List.length_eq_zero.mp (by simpa using this))
    · rw [if_neg hr] at hit
      exact hinv rr it hit

/-! ### The claims about the vector store -/

/-- C5: with `k > 0`, a length mismatch between the query and any stored
vector in the queried partition makes `search` fail with the
dimensionality error (no partial results), and with no mismatch no such
error is raised. -/
theorem search_dimension_mismatch :
    ∀ (μ : Type) (store : Store μ) (repoId : String) (q : Vec) (k : Int),
      0 < k →
      ((∃ it ∈ store repoId, it.2.1.length ≠ q.length) →
        ∃ e, SimpleVectorStore.search store repoId q k = Except.error e) ∧
      ((∀ it ∈ store repoId, it.2.1.length = q.length) →
        ∃ res, SimpleVectorStore.search store repoId q k = Except.ok res) := by
  intro μ store rid q k hk
  constructor
  · rintro ⟨it, hmem, hlen⟩
    have hne : store rid ≠ [] := by
      rintro h0
      rw [h0] at hmem
      exact absurd hmem (List.not_mem_nil it)
    rw [SimpleVectorStore.search_eq store rid q k hk hne]
    obtain ⟨e, he⟩ := SimpleVectorStore.scoreItems_error
      (SimpleVectorStore.normalize q) (store rid)
      ⟨it, hmem, by rw [SimpleVectorStore.normalize_length]; exact hlen⟩
    rw [he]
    exact ⟨e, rfl⟩
  · intro hall
    by_cases hne : store rid = []
    · exact ⟨[], SimpleVectorStore.search_empty_partition store rid q k hne⟩
    · rw [SimpleVectorStore.search_eq store rid q k hk hne]
      rw [SimpleVectorStore.scoreItems_eq (SimpleVectorStore.normalize q)
        (store rid) fun it hit => by
          rw [SimpleVectorStore.normalize_length]; exact hall it hit]
      exact ⟨_, rfl⟩

/-- Witness for C5: a one-dimensional stored vector against a
two-dimensional query aborts with an error. -/
theorem search_dimension_mismatch_witness :
    (0 : Int) < 1 ∧
    ∃ e, SimpleVectorStore.search (fun _ => [("a", [(1:ℝ)], ())]) "r"
      [(1:ℝ), 0] 1 = Except.error e :=
  ⟨by norm_num,
    (search_dimension_mismatch Unit (fun _ => [("a", [(1:ℝ)], ())]) "r"
      [(1:ℝ), 0] 1 (by norm_num)).1 ⟨("a", [(1:ℝ)], ()), by simp, by simp⟩⟩

/-- C6: search results are sorted by non-increasing score with ties kept
in insertion order (stable sort); the result has exactly
`min k n` entries when the call succeeds; `k ≤ 0` and an empty (or
missing) partition give the empty list, not an error. -/
theorem search_sorted_stable :
    ∀ (μ : Type) (store : Store μ) (repoId : String) (q : Vec) (k : Int),
      (k ≤ 0 → SimpleVectorStore.search store repoId q k = Except.ok []) ∧
      (store repoId = [] →
        SimpleVectorStore.search store repoId q k = Except.ok []) ∧
      (0 < k → ∀ res,
        SimpleVectorStore.search store repoId q k = Except.ok res →
        res.length = min k.toNat (store repoId).length ∧
        res.Pairwise (fun a b => b.score ≤ a.score) ∧
        ∃ scored, SimpleVectorStore.scoreItems (SimpleVectorStore.normalize q)
            (store repoId) = Except.ok scored ∧
          scored.map (fun r => r.id) = (store repoId).map (fun it => it.1) ∧
          res = (scored.mergeSort SimpleVectorStore.scoreLe).take k.toNat ∧
          ∀ s : ℝ, List.Sublist (res.filter fun r => decide (r.score = s))
            (scored.filter fun r => decide (r.score = s))) := by
  intro μ store rid q k
  refine ⟨fun hk => SimpleVectorStore.search_k_nonpos _ _ _ _ hk,
    fun h => SimpleVectorStore.search_empty_partition _ _ _ _ h, ?_⟩
  intro hk res hres
  by_cases hne : store rid = []
  · rw [SimpleVectorStore.search_empty_partition _ _ _ _ hne] at hres
    injection hres with hres
    subst hres
    refine ⟨by simp [hne], List.Pairwise.nil, [], by rw [hne]; rfl,
      by rw [hne]; rfl, by simp, fun s => List.nil_sublist _⟩
  · rw [SimpleVectorStore.search_eq store rid q k hk hne] at hres
    cases hscore : SimpleVectorStore.scoreItems (SimpleVectorStore.normalize q)
        (store rid) with
    | error e =>
      rw [hscore] at hres
      cases hres
    | ok scored =>
      rw [hscore] at hres
      injection hres with hres
      have hres' : res =
          (scored.mergeSort SimpleVectorStore.scoreLe).take k.toNat := hres.symm
      have hlen_scored : scored.length = (store rid).length := by
        rw [(SimpleVectorStore.scoreItems_ok_imp hscore).2, List.length_map]
      refine ⟨?_, ?_, scored, rfl, ?_, hres', ?_⟩
      · rw [hres', List.length_take, List.length_mergeSort, hlen_scored]
      · have hs := @List.sorted_mergeSort _ SimpleVectorStore.scoreLe
          SimpleVectorStore.scoreLe_trans SimpleVectorStore.scoreLe_total scored
        have htake := hs.sublist (List.take_sublist k.toNat _)
        rw [hres']
        exact htake.imp fun h => by
          simpa [SimpleVectorStore.scoreLe, decide_eq_true_eq] using h
      · rw [(SimpleVectorStore.scoreItems_ok_imp hscore).2, List.map_map]
        rfl
      · intro s
        have hfil := SimpleVectorStore.filter_mergeSort_of_const scored
          (fun r => decide (r.score = s)) ?_
        · rw [hres']
          have h1 := (List.take_sublist k.toNat
            (scored.mergeSort SimpleVectorStore.scoreLe)).filter
            (fun r => decide (r.score = s))
          rw [hfil] at h1
          exact h1
        · intro a b hpa hpb
          rw [decide_eq_true_eq] at hpa hpb
          simp [SimpleVectorStore.scoreLe, hpa, hpb]

/-- Witness for C6 on an empty partition. -/
theorem search_sorted_stable_witness :
    SimpleVectorStore.search (emptyStore Unit) "r" [(1:ℝ)] 3 = Except.ok [] :=
  (search_sorted_stable Unit (emptyStore Unit) "r" [(1:ℝ)] 3).2.1 rfl

/-- C7 counterexample: with an empty `repo_id` AND an empty `items`
list, `add_vectors` raises (the `repo_id` check runs first), so "empty
`items` is a successful no-op" does not hold unconditionally. -/
theorem add_vectors_empty_noop_cex :
    (SimpleVectorStore.add_vectors (emptyStore Unit) "" []).1 =
      Except.error "repo_id must be non-empty" ∧
    (SimpleVectorStore.add_vectors (emptyStore Unit) "" []).1 ≠
      Except.ok () := by
  rw [SimpleVectorStore.add_vectors_error_repo]
  exact ⟨rfl, by simp⟩

/-- C7 (amended): `add_vectors` raises iff `repo_id` is empty or some
vector is empty; empty `items` with a NON-EMPTY `repo_id` is a
successful no-op; every raising call leaves the store unchanged. -/
theorem add_vectors_validation :
    ∀ (μ : Type) (store : Store μ) (repoId : String)
        (items : List (StoredItem μ)),
      ((∃ e, (SimpleVectorStore.add_vectors store repoId items).1 =
          Except.error e) ↔
        (repoId = "" ∨ ∃ it ∈ items, it.2.1 = [])) ∧
      (repoId ≠ "" → items = [] →
        SimpleVectorStore.add_vectors store repoId items =
          (Except.ok (), store)) ∧
      (∀ e, (SimpleVectorStore.add_vectors store repoId items).1 =
          Except.error e →
        (SimpleVectorStore.add_vectors store repoId items).2 = store) := by
  intro μ store rid items
  by_cases hrid : rid = ""
  · subst hrid
    rw [SimpleVectorStore.add_vectors_error_repo]
    exact ⟨⟨fun _ => Or.inl rfl, fun _ => ⟨_, rfl⟩⟩,
      fun h => absurd rfl h, fun e _ => rfl⟩
  · by_cases hall : ∀ it ∈ items, it.2.1 ≠ []
    · rw [SimpleVectorStore.add_vectors_ok store rid items hrid hall]
      refine ⟨⟨?_, ?_⟩, ?_, ?_⟩
      · rintro ⟨e, he⟩
        simp at he
      · rintro (h | ⟨x, hx, hxe⟩)
        · exact absurd h hrid
        · exact absurd hxe (hall x hx)
      · intro _ hempty
        subst hempty
        refine Prod.ext rfl ?_
        funext r
        show (if r = rid then store r ++
          List.map (fun it => (it.1, SimpleVectorStore.normalize it.2.1, it.2.2))
            ([] : List (StoredItem μ)) else store r) = store r
        split <;> simp
      · intro e he
        simp at he
    · push_neg at hall
      obtain ⟨x, hx, hxe⟩ := hall
      obtain ⟨e0, he0⟩ := SimpleVectorStore.add_vectors_invalid_vec store rid
        items hrid ⟨x, hx, hxe⟩
      rw [he0]
      refine ⟨⟨fun _ => Or.inr ⟨x, hx, hxe⟩, fun _ => ⟨e0, rfl⟩⟩, ?_,
        fun e _ => rfl⟩
      intro _ hempty
      subst hempty
      exact absurd hx (List.not_mem_nil x)

/-- Witness for C7 (amended): an empty vector raises; empty `items`
with a valid repo id is a no-op. -/
theorem add_vectors_validation_witness :
    (∃ e, (SimpleVectorStore.add_vectors (emptyStore Unit) "r"
      [("c", [], ())]).1 = Except.error e) ∧
    SimpleVectorStore.add_vectors (emptyStore Unit) "r"
      ([] : List (StoredItem Unit)) = (Except.ok (), emptyStore Unit) :=
  ⟨(add_vectors_validation Unit (emptyStore Unit) "r" [("c", [], ())]).1.mpr
      (Or.inr ⟨("c", [], ()), List.mem_cons_self _ _, rfl⟩),
   (add_vectors_validation Unit (emptyStore Unit) "r" []).2.1
      (by decide) rfl⟩

/-- C9 (code bug): in the zero-norm branch `SimpleVectorStore._normalize`
returns its argument itself — in Python, the caller's very list object —
so for all-zero vectors the store aliases the caller's list instead of
keeping an independent copy (contrast `embeddings._normalize`, which
builds a fresh list in that branch). -/
theorem normalize_zero_returns_argument :
    ∀ v : Vec, (∀ x ∈ v, x = 0) → SimpleVectorStore.normalize v = v :=
  fun v h => SimpleVectorStore.normalize_of_zero ((sumSq_eq_zero_iff v).mpr h)

/-- Witness for C9's failing input `[0.0]`. -/
theorem normalize_zero_returns_argument_witness :
    (∀ x ∈ [(0:ℝ)], x = 0) ∧
      SimpleVectorStore.normalize [(0:ℝ)] = [(0:ℝ)] :=
  ⟨by simp, normalize_zero_returns_argument [(0:ℝ)] (by simp)⟩

/-- C10: `add_vectors` guarantees stored vectors are non-empty, and under
that invariant a search with an empty query vector over a non-empty
partition and `k > 0` raises the dimensionality-mismatch error. -/
theorem search_empty_query_mismatch :
    (∀ (μ : Type) (store : Store μ) (repoId : String)
        (items : List (StoredItem μ)) (r : Except String Unit)
        (store' : Store μ),
      VecsNonEmpty store →
      SimpleVectorStore.add_vectors store repoId items = (r, store') →
      VecsNonEmpty store') ∧
    (∀ (μ : Type) (store : Store μ) (repoId : String) (k : Int),
      VecsNonEmpty store → store repoId ≠ [] → 0 < k →
      ∃ e, SimpleVectorStore.search store repoId [] k = Except.error e) := by
  constructor
  · intro μ store rid items r store' hinv heq
    exact VecsNonEmpty_add_vectors hinv heq
  · intro μ store rid k hinv hne hk
    rw [SimpleVectorStore.search_eq store rid [] k hk hne]
    have hq : SimpleVectorStore.normalize ([] : Vec) = [] :=
      SimpleVectorStore.normalize_of_zero rfl
    obtain ⟨it, hit⟩ := List.exists_mem_of_ne_nil (store rid) hne
    obtain ⟨e, he⟩ := SimpleVectorStore.scoreItems_error
      (SimpleVectorStore.normalize []) (store rid)
      ⟨it, hit, by
        rw [hq]
        intro hlen
        exact hinv rid it hit (List.length_eq_zero.mp (by simpa using hlen))⟩
    rw [he]
    exact ⟨e, rfl⟩

/-- Witness for C10 on a one-item store. -/
theorem search_empty_query_mismatch_witness :
    ∃ e, SimpleVectorStore.search (fun _ => [("a", [(1:ℝ)], ())]) "r" [] 1 =
      Except.error e :=
  search_empty_query_mismatch.2 Unit (fun _ => [("a", [(1:ℝ)], ())]) "r" 1
    (by
      rintro r it hit
      simp only [List.mem_singleton] at hit
      subst hit
      simp)
    (by simp) (by norm_num)

/-- C4: vectors returned by `embed_texts` and vectors held in the store
are unit vectors (exact norm 1 in the real-arithmetic model, hence
within any tolerance), except inputs that were all-zero before
normalization, which stay exactly all-zero; the store invariant holds
initially and is preserved by `add_vectors`. -/
theorem normalized_vectors_invariant :
    (∀ (byteAt : String → Nat → Nat) (texts : List String) (dim : Int)
        (vs : List Vec),
      Embeddings.embed_texts byteAt texts dim = Except.ok vs →
      ∀ w ∈ vs, Real.sqrt (sumSq w) = 1 ∨ w = List.replicate w.length 0) ∧
    (∀ μ : Type, NormInv (emptyStore μ)) ∧
    (∀ (μ : Type) (store : Store μ) (repoId : String)
        (items : List (StoredItem μ)) (r : Except String Unit)
        (store' : Store μ),
      NormInv store →
      SimpleVectorStore.add_vectors store repoId items = (r, store') →
      NormInv store') := by
  refine ⟨?_, NormInv_empty,
    fun μ store rid items r store' => NormInv_add_vectors⟩
  intro byteAt texts dim vs h w hw
  unfold Embeddings.embed_texts at h
  by_cases hdim : dim ≤ 0
  · rw [if_pos hdim] at h
    cases h
  · rw [if_neg hdim] at h
    injection h with h
    subst h
    rcases List.mem_map.mp hw with ⟨t, ht, rfl⟩
    exact Embeddings.normalize_unit_or_zero _

/-- Witness for C4: a concrete embedding call and a concrete insertion. -/
theorem normalized_vectors_invariant_witness :
    Embeddings.embed_texts (fun _ _ => 0) ["t"] 1 = Except.ok [[(0:ℝ)]] ∧
    (Real.sqrt (sumSq [(0:ℝ)]) = 1 ∨
      [(0:ℝ)] = List.replicate ([(0:ℝ)]).length 0) ∧
    NormInv (SimpleVectorStore.add_vectors (emptyStore Unit) "r"
      [("c", [(1:ℝ)], ())]).2 := by
  have hn : Embeddings.normalize [(0:ℝ)] = [(0:ℝ)] := by
    unfold Embeddings.normalize
    rw [show sumSq [(0:ℝ)] = 0 by simp [sumSq], Real.sqrt_zero, if_pos rfl]
    simp
  have hemb : Embeddings.embed_texts (fun _ _ => 0) ["t"] 1 =
      Except.ok [[(0:ℝ)]] := by
    unfold Embeddings.embed_texts
    rw [if_neg (by norm_num)]
    simp only [List.map_cons, List.map_nil]
    rw [show ((List.range (1:Int).toNat).map
        fun i => (((fun _ _ => 0) "t" i : Nat) : ℝ) / 255) = [(0:ℝ)] by
      norm_num [List.range_succ]]
    rw [hn]
  exact ⟨hemb,
    normalized_vectors_invariant.1 (fun _ _ => 0) ["t"] 1 [[(0:ℝ)]] hemb
      [(0:ℝ)] (List.mem_singleton.mpr rfl),
    normalized_vectors_invariant.2.2 Unit (emptyStore Unit) "r"
      [("c", [(1:ℝ)], ())] _ _ (normalized_vectors_invariant.2.1 Unit) rfl⟩

/-! ### The self-match claim (C1) -/

theorem cosValue_self {q : Vec} (h : sumSq q = 1) :
    SimpleVectorStore.cosValue q q = 1 := by
  unfold SimpleVectorStore.cosValue
  rw [h, Real.sqrt_one, if_neg (by norm_num), dot_self, h]
  norm_num

theorem cosValue_lt_one {q w : Vec} (hq : sumSq q = 1)
    (hlen : w.length = q.length)
    (hw : Real.sqrt (sumSq w) = 1 ∨ w = List.replicate w.length 0)
    (hne : w ≠ q) : SimpleVectorStore.cosValue q w < 1 := by
  rcases hw with hw1 | hw0
  · have hsw : sumSq w = 1 := by
      have := Real.sq_sqrt (sumSq_nonneg w)
      rw [hw1] at this
      simpa using this.symm
    unfold SimpleVectorStore.cosValue
    rw [hq, hsw, Real.sqrt_one, if_neg (by norm_num)]
    have hd := dot_le_one (a := q) (b := w) hlen.symm hq hsw
    have hlt : dot q w < 1 :=
      lt_of_le_of_ne hd.1 fun h1 => hne (hd.2 h1).symm
    simpa using hlt
  · have hsw : sumSq w = 0 := (sumSq_eq_zero_iff w).mpr fun x hx =>
      List.eq_of_mem_replicate (hw0 ▸ hx)
    unfold SimpleVectorStore.cosValue
    rw [hq, hsw, Real.sqrt_zero, if_pos (Or.inr rfl)]
    norm_num

/-- If one result strictly dominates every other score, it is the head of
the sorted list, so `[:1]` returns exactly it. -/
theorem take_one_mergeSort_of_max {μ : Type}
    (scored : List (SearchResult μ)) (ours : SearchResult μ)
    (hmem : ours ∈ scored)
    (hmax : ∀ x ∈ scored, x = ours ∨ x.score < ours.score) :
    (scored.mergeSort SimpleVectorStore.scoreLe).take 1 = [ours] := by
  have hpair := @List.sorted_mergeSort _ SimpleVectorStore.scoreLe
    SimpleVectorStore.scoreLe_trans SimpleVectorStore.scoreLe_total scored
  have hmm : ours ∈ scored.mergeSort SimpleVectorStore.scoreLe :=
    List.mem_mergeSort.mpr hmem
  cases hsort : scored.mergeSort SimpleVectorStore.scoreLe with
  | nil =>
    exfalso
    rw [hsort] at hmm
    exact absurd hmm (List.not_mem_nil ours)
  | cons h0 t0 =>
    have h0mem : h0 ∈ scored := by
      have h1 : h0 ∈ scored.mergeSort SimpleVectorStore.scoreLe := by
        rw [hsort]
        exact List.mem_cons_self h0 t0
      exact List.mem_mergeSort.mp h1
    rcases hmax h0 h0mem with rfl | hlt
    · rfl
    · exfalso
      rw [hsort] at hmm
      rcases List.mem_cons.mp hmm with rfl | htail
      · exact lt_irrefl _ hlt
      · rw [hsort] at hpair
        have hle := (List.pairwise_cons.mp hpair).1 ours htail
        rw [SimpleVectorStore.scoreLe, decide_eq_true_eq] at hle
        linarith

theorem sumSq_single_one : sumSq [(1:ℝ)] = 1 := by norm_num [sumSq]

theorem sumSq_single_two : sumSq [(2:ℝ)] = 4 := by norm_num [sumSq]

theorem normalize_single_one :
    SimpleVectorStore.normalize [(1:ℝ)] = [(1:ℝ)] := by
  unfold SimpleVectorStore.normalize
  rw [sumSq_single_one, Real.sqrt_one, if_neg one_ne_zero]
  norm_num

theorem normalize_single_two :
    SimpleVectorStore.normalize [(2:ℝ)] = [(1:ℝ)] := by
  unfold SimpleVectorStore.normalize
  rw [sumSq_single_two,
    show Real.sqrt 4 = 2 by
      rw [show (4:ℝ) = 2 ^ 2 by norm_num, Real.sqrt_sq (by norm_num : (0:ℝ) ≤ 2)],
    if_neg two_ne_zero]
  norm_num

/-- Search evaluates to the sorted, truncated results list once the
scoring loop's outcome is known. -/
theorem search_of_scoreItems_ok {μ : Type} (store : Store μ)
    (repoId : String) (q : Vec) (k : Int) (hk : 0 < k)
    (hne : store repoId ≠ []) {scored : List (SearchResult μ)}
    (hs : SimpleVectorStore.scoreItems (SimpleVectorStore.normalize q)
      (store repoId) = Except.ok scored) :
    SimpleVectorStore.search store repoId q k =
      Except.ok ((scored.mergeSort SimpleVectorStore.scoreLe).take k.toNat) := by
  rw [SimpleVectorStore.search_eq store repoId q k hk hne, hs]

/-- C1 counterexample: insert `[1.0]` as "old", then `[2.0]` as "new".
Before the second insertion no stored item equals `v = [2.0]`, yet
`search(repo, [2.0], 1)` returns "old" (both normalize to `[1.0]`, both
score `1.0`, and the stable sort keeps the older item first), not "new"
as the claim demands. -/
theorem search_self_match_cex :
    ∃ st1 st2 : Store Unit,
      SimpleVectorStore.add_vectors (emptyStore Unit) "repo"
        [("old", [(1:ℝ)], ())] = (Except.ok (), st1) ∧
      SimpleVectorStore.add_vectors st1 "repo" [("new", [(2:ℝ)], ())] =
        (Except.ok (), st2) ∧
      (∀ it ∈ st1 "repo", it.2.1 ≠ [(2:ℝ)]) ∧
      SimpleVectorStore.search st2 "repo" [(2:ℝ)] 1 =
        Except.ok [⟨"old", 1, ()⟩] ∧
      ("old" : String) ≠ "new" := by
  refine ⟨fun r => if r = "repo" then [("old", [(1:ℝ)], ())] else [],
    fun r => if r = "repo" then
      [("old", [(1:ℝ)], ()), ("new", [(1:ℝ)], ())] else [],
    ?_, ?_, ?_, ?_, by decide⟩
  · rw [SimpleVectorStore.add_vectors_ok _ _ _ (by decide)
      (by intro it hit; simp only [List.mem_singleton] at hit; subst hit; simp)]
    refine Prod.ext rfl ?_
    funext r
    show (if r = "repo" then emptyStore Unit r ++
        List.map (fun it => (it.1, SimpleVectorStore.normalize it.2.1, it.2.2))
          [("old", [(1:ℝ)], ())]
      else emptyStore Unit r) = _
    by_cases hr : r = "repo" <;> simp [hr, emptyStore, normalize_single_one]
  · rw [SimpleVectorStore.add_vectors_ok _ _ _ (by decide)
      (by intro it hit; simp only [List.mem_singleton] at hit; subst hit; simp)]
    refine Prod.ext rfl ?_
    funext r
    show (if r = "repo" then
        (if r = "repo" then [("old", [(1:ℝ)], ())] else []) ++
          List.map (fun it => (it.1, SimpleVectorStore.normalize it.2.1, it.2.2))
            [("new", [(2:ℝ)], ())]
      else if r = "repo" then [("old", [(1:ℝ)], ())] else []) = _
    by_cases hr : r = "repo" <;> simp [hr, normalize_single_two]
  · intro it hit
    have hit' : it = ("old", [(1:ℝ)], ()) := by simpa using hit
    subst hit'
    simp only [ne_eq, List.cons.injEq, and_true]
    norm_num
  · have hs : SimpleVectorStore.scoreItems
        (SimpleVectorStore.normalize [(2:ℝ)])
        ((fun r => if r = "repo" then
          [("old", [(1:ℝ)], ()), ("new", [(1:ℝ)], ())] else
          ([] : List (StoredItem Unit))) "repo") =
        Except.ok [⟨"old", 1, ()⟩, ⟨"new", 1, ()⟩] := by
      show SimpleVectorStore.scoreItems (SimpleVectorStore.normalize [(2:ℝ)])
        [("old", [(1:ℝ)], ()), ("new", [(1:ℝ)], ())] = _
      rw [normalize_single_two]
      rw [SimpleVectorStore.scoreItems_eq _ _
        (by intro it hit; rcases List.mem_cons.mp hit with rfl | hit' <;>
          simp_all)]
      simp only [List.map_cons, List.map_nil]
      rw [show SimpleVectorStore.cosValue [(1:ℝ)] [(1:ℝ)] = 1 from
        cosValue_self sumSq_single_one]
    rw [search_of_scoreItems_ok _ _ _ _ (by norm_num) (by simp) hs]
    rw [List.mergeSort_of_sorted (by
      refine List.pairwise_cons.mpr ⟨?_, ?_⟩
      · intro b hb
        simp only [List.mem_singleton] at hb
        subst hb
        simp [SimpleVectorStore.scoreLe]
      · simp)]
    rfl

/-- C1 (amended): after inserting a non-zero vector `v` into a partition
(of matching dimension, with normalized stored vectors) that holds no
other item whose stored vector equals the normalized `v`,
`search(repo, v, 1)` returns exactly the new item's id and metadata with
score exactly `1.0`, even though the stored copy was independently
normalized. -/
theorem search_self_match :
    ∀ (μ : Type) (store : Store μ) (repoId cid : String) (v : Vec) (meta : μ)
      (store' : Store μ),
      repoId ≠ "" → v ≠ [] → sumSq v ≠ 0 →
      (∀ it ∈ store repoId,
        it.2.1.length = v.length ∧
        (Real.sqrt (sumSq it.2.1) = 1 ∨
          it.2.1 = List.replicate it.2.1.length 0) ∧
        it.2.1 ≠ SimpleVectorStore.normalize v) →
      SimpleVectorStore.add_vectors store repoId [(cid, v, meta)] =
        (Except.ok (), store') →
      SimpleVectorStore.search store' repoId v 1 =
        Except.ok [⟨cid, 1, meta⟩] := by
  intro μ store rid cid v meta store' hrid hv hsum h4 heq
  have hq1 : sumSq (SimpleVectorStore.normalize v) = 1 :=
    SimpleVectorStore.normalize_sumSq hsum
  have hqlen : (SimpleVectorStore.normalize v).length = v.length :=
    SimpleVectorStore.normalize_length v
  have hall : ∀ it ∈ [(cid, v, meta)], it.2.1 ≠ [] := by
    intro it hit
    simp only [List.mem_singleton] at hit
    subst hit
    exact hv
  rw [SimpleVectorStore.add_vectors_ok store rid _ hrid hall] at heq
  have hst : store' = fun r => if r = rid then
      store r ++ [(cid, SimpleVectorStore.normalize v, meta)] else store r :=
    (Prod.ext_iff.mp heq).2.symm
  have hstrid : store' rid =
      store rid ++ [(cid, SimpleVectorStore.normalize v, meta)] := by
    rw [hst]
    simp
  have hne : store' rid ≠ [] := by
    rw [hstrid]
    simp
  rw [SimpleVectorStore.search_eq store' rid v 1 (by norm_num) hne]
  have hlenall : ∀ it ∈ store' rid,
      it.2.1.length = (SimpleVectorStore.normalize v).length := by
    intro it hit
    rw [hstrid] at hit
    rcases List.mem_append.mp hit with hold | hnew
    · rw [hqlen]
      exact (h4 it hold).1
    · simp only [List.mem_singleton] at hnew
      subst hnew
      rfl
  rw [SimpleVectorStore.scoreItems_eq _ _ hlenall, hstrid, List.map_append]
  simp only [List.map_cons, List.map_nil]
  rw [show SimpleVectorStore.cosValue (SimpleVectorStore.normalize v)
      (SimpleVectorStore.normalize v) = 1 from cosValue_self hq1]
  rw [show ((1:Int)).toNat = 1 from rfl]
  rw [take_one_mergeSort_of_max _ (⟨cid, 1, meta⟩ : SearchResult μ)
    (List.mem_append_right _ (List.mem_singleton.mpr rfl)) ?_]
  intro x hx
  rcases List.mem_append.mp hx with hold | hnew
  · rcases List.mem_map.mp hold with ⟨it, hit, rfl⟩
    right
    show SimpleVectorStore.cosValue (SimpleVectorStore.normalize v) it.2.1 < 1
    exact cosValue_lt_one hq1 (by rw [hqlen]; exact (h4 it hit).1)
      (h4 it hit).2.1 (h4 it hit).2.2
  · simp only [List.mem_singleton] at hnew
    exact Or.inl hnew

/-- Witness for C1 (amended): inserting `[2.0]` into an empty partition
and searching for `[2.0]` with `k = 1` returns it with score `1.0`. -/
theorem search_self_match_witness :
    ("r" : String) ≠ "" ∧ ([(2:ℝ)] : Vec) ≠ [] ∧ sumSq [(2:ℝ)] ≠ 0 ∧
    SimpleVectorStore.search
      (fun rr => if rr = "r" then [("c", [(1:ℝ)], ())] else []) "r"
      [(2:ℝ)] 1 = Except.ok [⟨"c", 1, ()⟩] := by
  refine ⟨by decide, by simp, by rw [sumSq_single_two]; norm_num, ?_⟩
  refine search_self_match Unit (emptyStore Unit) "r" "c" [(2:ℝ)] () _
    (by decide) (by simp) (by rw [sumSq_single_two]; norm_num)
    (by intro it hit; exact absurd hit (List.not_mem_nil it)) ?_
  rw [SimpleVectorStore.add_vectors_ok _ _ _ (by decide)
    (by intro it hit; simp only [List.mem_singleton] at hit; subst hit; simp)]
  refine Prod.ext rfl ?_
  funext rr
  show (if rr = "r" then emptyStore Unit rr ++
      List.map (fun it => (it.1, SimpleVectorStore.normalize it.2.1, it.2.2))
        [("c", [(2:ℝ)], ())]
    else emptyStore Unit rr) = _
  by_cases hr : rr = "r" <;> simp [hr, emptyStore, normalize_single_two]

end CodeIngest
